import Mathlib

/-!
Verification of the `binarytree` C extension (src/binarytree.c).

Shallow embedding of the AVL-balanced binary search tree implemented in
`src/binarytree.c`.  A C `Node *` (which may be `NULL`) is embedded as the
inductive type `NTree`: the constructor `nil` stands for a `NULL` pointer and
`node item lchild rchild balance height` stands for a `Node` with those field
values.  Python items are embedded by a type parameter `α`; the fallible
`PyObject_Compare` is embedded as a function `α → α → Option Ordering`
(`none` = the comparison raised; `some .gt` = C result `1`,
`some .eq` = `0`, `some .lt` = `-1`).  Functions that can fail
(return `NULL` with an exception set) return `Option`.
-/

set_option maxHeartbeats 1000000

inductive NTree (α : Type) where
  | nil : NTree α
  | node (item : α) (lchild rchild : NTree α) (balance : Int) (height : Int) : NTree α
deriving DecidableEq, Repr

namespace NTree

variable {α : Type}

/-- `node->height`, with the convention of `NODE_UPDATE_BALANCE` and
`Node_updateHeight` that a `NULL` child contributes height `0`. -/
def heightOf : NTree α → Int
  | nil => 0
  | node _ _ _ _ h => h

/-- `node->balance`; reading the field of a `NULL` pointer is undefined
behaviour in C, embedded as `0` (it is unreachable on well-formed trees). -/
def balanceOf : NTree α → Int
  | nil => 0
  | node _ _ _ b _ => b

/-- `node == NULL`. -/
def isNil : NTree α → Bool
  | nil => true
  | node _ _ _ _ _ => false

/-- `node->item`, with a default for the unreachable `NULL` case. -/
def itemOrD : NTree α → α → α
  | nil, d => d
  | node it _ _ _ _, _ => it

/-- `Node_updateHeight` (src/binarytree.c:364-375): recompute the `height`
field from the children's current `height` fields. -/
def withHeight : NTree α → NTree α
  | nil => nil
  | node it l r b _ => node it l r b (1 + max (heightOf l) (heightOf r))

/-- The `NODE_UPDATE_BALANCE` macro (src/binarytree.c:61-63): recompute the
`balance` field as right height minus left height. -/
def withBalance : NTree α → NTree α
  | nil => nil
  | node it l r _ h => node it l r (heightOf r - heightOf l) h

/-- `rotateLeft` (src/binarytree.c:317-337).  The C function mutates in
place in this order: reattach the displaced grandchild and update the old
root's height, attach the old root under the new root and update the new
root's height, then update both balance fields.  Since the balance field is
never read by `Node_updateHeight`, updating the old root's balance before
the new root's height (as below) yields the same node values. -/
def rotateLeft : NTree α → NTree α
  | nil => nil
  | node it l nil b h => node it l nil b h
  | node it l (node rit rl rr rb rh) b h =>
    let root := withBalance (withHeight (node it l rl b h))
    withBalance (withHeight (node rit root rr rb rh))

/-- `rotateRight` (src/binarytree.c:342-362), mirror image of `rotateLeft`. -/
def rotateRight : NTree α → NTree α
  | nil => nil
  | node it nil r b h => node it nil r b h
  | node it (node lit ll lr lb lh) r b h =>
    let root := withBalance (withHeight (node it lr r b h))
    withBalance (withHeight (node lit ll root lb lh))

/-- `root->lchild = x` keeping the other fields. -/
def setLchild : NTree α → NTree α → NTree α
  | nil, _ => nil
  | node it _ r b h, l => node it l r b h

/-- `root->rchild = x` keeping the other fields. -/
def setRchild : NTree α → NTree α → NTree α
  | nil, _ => nil
  | node it l _ b h, r => node it l r b h

/-- The unwinding step of `Node_insert`'s "descend left" branch
(src/binarytree.c:411-446), applied after the recursive call returned the
new left child `l`.  `ch` is `child_height`, the left child's height
recorded before the recursive call (`0` when the child was `NULL`).
If the child's height did not change the root is returned untouched;
otherwise height and balance are recomputed and, when `balance == -2`,
a left-right or left-left rotation is performed. -/
def unwindInsL (it : α) (l r : NTree α) (b h ch : Int) : NTree α :=
  if heightOf l = ch then node it l r b h
  else
    let root := withBalance (withHeight (node it l r b h))
    if balanceOf root > -2 then root
    else if balanceOf l = 1 then rotateRight (setLchild root (rotateLeft l))
    else rotateRight root

/-- The unwinding step of `Node_insert`'s "descend right" branch
(src/binarytree.c:448-478), mirror image of `unwindInsL`. -/
def unwindInsR (it : α) (l r : NTree α) (b h ch : Int) : NTree α :=
  if heightOf r = ch then node it l r b h
  else
    let root := withBalance (withHeight (node it l r b h))
    if balanceOf root < 2 then root
    else if balanceOf r = -1 then rotateLeft (setRchild root (rotateRight r))
    else rotateLeft root

/-- `Node_insert` (src/binarytree.c:400-482).  The C function takes the new
node, already initialized as a leaf holding the new item (`Node_new` plus
the item assignment in `BinaryTree_insert`); here the new leaf is represented
by its item `x` and attaching it builds `node x nil nil 0 1`
(`NODE_SET_LEAF`).  `none` models returning `NULL` (comparison failure;
`Py_EnterRecursiveCall` failures are not modelled). -/
def Node_insert (cmp : α → α → Option Ordering) : NTree α → α → Option (NTree α)
  | nil, x => some (node x nil nil 0 1)
  | node it l r b h, x =>
    match cmp it x with
    | none => none
    | some Ordering.eq => some (node it l r b h)
    | some Ordering.gt =>
      match Node_insert cmp l x with
      | none => none
      | some l2 => some (unwindInsL it l2 r b h (heightOf l))
    | some Ordering.lt =>
      match Node_insert cmp r x with
      | none => none
      | some r2 => some (unwindInsR it l r2 b h (heightOf r))

/-- Number of nodes of a tree (used as the termination measure of
`Node_remove`, mirroring the C recursion which always recurses into a
strictly smaller subtree). -/
def size : NTree α → Nat
  | nil => 0
  | node _ l r _ _ => 1 + size l + size r

/-- The item-swap part of `Node_remove`'s two-children case
(src/binarytree.c:532-544): walk to the rightmost node `rm` of the given
subtree and swap its item with `x` (the matched root's item).  Returns
`(rm->item before the swap, subtree after the swap)`.  The `nil` case is
unreachable in C (the case is entered only with a non-`NULL` left child). -/
def swapRightmost (x : α) : NTree α → α × NTree α
  | nil => (x, nil)
  | node it l nil b h => (it, node x l nil b h)
  | node it l (node rit rl rr rb rh) b h =>
    let p := swapRightmost x (node rit rl rr rb rh)
    (p.1, node it l p.2 b h)

/-- The unwinding step of `Node_remove`'s "descend left" code
(src/binarytree.c:589-620), applied after the recursive call returned the
new left child `l`; `ch` is `child_height`.  Unlike insertion, height and
balance are recomputed before the height-unchanged short-circuit, the
short-circuit applies only when the new child is non-`NULL`, and the
rotation choice inspects the sibling's balance against `-1`. -/
def unwindRemL (it : α) (l r : NTree α) (ch : Int) : NTree α :=
  let root := withBalance (withHeight (node it l r 0 0))
  if !l.isNil && heightOf l = ch then root
  else if balanceOf root < 2 then root
  else if balanceOf r != -1 then rotateLeft root
  else rotateLeft (setRchild root (rotateRight r))

/-- The unwinding step of `Node_remove`'s "descend right" branch
(src/binarytree.c:548-581), mirror image of `unwindRemL`. -/
def unwindRemR (it : α) (l r : NTree α) (ch : Int) : NTree α :=
  let root := withBalance (withHeight (node it l r 0 0))
  if !r.isNil && heightOf r = ch then root
  else if balanceOf root > -2 then root
  else if balanceOf l != 1 then rotateRight root
  else rotateRight (setLchild root (rotateLeft l))

theorem size_swapRightmost (x : α) : ∀ t : NTree α, size (swapRightmost x t).2 = size t
  | nil => rfl
  | node _ l nil _ _ => by simp [swapRightmost, size]
  | node _ l (node rit rl rr rb rh) _ _ => by
    simp [swapRightmost, size, size_swapRightmost x (node rit rl rr rb rh)]

/-- `Node_remove` (src/binarytree.c:488-621).  Result `none` models
returning `NULL` with an exception set (comparison failure); `some nil`
models returning `NULL` with no exception (the tree became empty).
The leaf test is the `NODE_IS_LEAF` macro on the node's stored fields; the
one-child case copies the child's item into the surviving root node and
makes it a leaf (`NODE_SET_LEAF`); the two-children case swaps items with
the in-order predecessor (`swapRightmost`) and then removes `target` from
the left subtree, exactly as the C falls through to its left-descend code
with `cmp = 1`.  The C reads `root->lchild` after both one-child tests fail
with both children `NULL` (impossible on well-formed trees); that
unreachable path is embedded via `swapRightmost`'s total `nil` case. -/
def Node_remove (cmp : α → α → Option Ordering) : NTree α → α → Option (NTree α)
  | nil, _ => some nil
  | node it l r b h, target =>
    match cmp it target with
    | none => none
    | some Ordering.eq =>
      if h = 1 && l.isNil && r.isNil && b = 0 then some nil
      else if !l.isNil && r.isNil then some (node (itemOrD l it) nil nil 0 1)
      else if l.isNil && !r.isNil then some (node (itemOrD r it) nil nil 0 1)
      else
        match Node_remove cmp (swapRightmost it l).2 target with
        | none => none
        | some l2 => some (unwindRemL (swapRightmost it l).1 l2 r (heightOf (swapRightmost it l).2))
    | some Ordering.gt =>
      match Node_remove cmp l target with
      | none => none
      | some l2 => some (unwindRemL it l2 r (heightOf l))
    | some Ordering.lt =>
      match Node_remove cmp r target with
      | none => none
      | some r2 => some (unwindRemR it l r2 (heightOf r))
  termination_by t _ => t.size
  decreasing_by
    all_goals simp [size, size_swapRightmost]
    all_goals omega

/-- `BinaryTree_insert` (src/binarytree.c:625-642) as it acts on
`self->root`: the root field is unconditionally assigned the return value
of `Node_insert`, so a failure (`NULL` return) leaves the root `NULL`. -/
def BT_insert_root (cmp : α → α → Option Ordering) (t : NTree α) (x : α) : NTree α :=
  match Node_insert cmp t x with
  | none => nil
  | some r => r

/-- `BinaryTree_remove` (src/binarytree.c:644-650) as it acts on
`self->root`: the root field is unconditionally assigned the return value
of `Node_remove`, so a failure (`NULL` return with an exception set)
leaves the root `NULL`. -/
def BT_remove_root (cmp : α → α → Option Ordering) (t : NTree α) (x : α) : NTree α :=
  match Node_remove cmp t x with
  | none => nil
  | some r => r

/-- `BinaryTree_locate` (src/binarytree.c:656-678).  `none` = `NULL`
(comparison failure), `some none` = `Py_None` (not found),
`some (some it)` = the found node, represented by its item. -/
def BinaryTree_locate (cmp : α → α → Option Ordering) : NTree α → α → Option (Option α)
  | nil, _ => some none
  | node it l r _ _, target =>
    match cmp it target with
    | none => none
    | some Ordering.eq => some (some it)
    | some Ordering.gt => BinaryTree_locate cmp l target
    | some Ordering.lt => BinaryTree_locate cmp r target

/-- `BinaryTree_contains` (src/binarytree.c:306-313): derived from
`BinaryTree_locate`; `none` = `-1` (failure), `some b` = `0`/`1`. -/
def BinaryTree_contains (cmp : α → α → Option Ordering) (t : NTree α) (x : α) : Option Bool :=
  match BinaryTree_locate cmp t x with
  | none => none
  | some none => some false
  | some (some _) => some true

/-- `Node_inOrder` (src/binarytree.c:684-711) with a visitor that may fail
(`f it = none` models the call raising).  `none` = `-1`, `some ()` = `1`. -/
def Node_inOrder (f : α → Option Unit) : NTree α → Option Unit
  | nil => some ()
  | node it l r _ _ =>
    match Node_inOrder f l with
    | none => none
    | some _ =>
      match f it with
      | none => none
      | some _ => Node_inOrder f r

/-- `Node_preOrder` (src/binarytree.c:717-743). -/
def Node_preOrder (f : α → Option Unit) : NTree α → Option Unit
  | nil => some ()
  | node it l r _ _ =>
    match f it with
    | none => none
    | some _ =>
      match Node_preOrder f l with
      | none => none
      | some _ => Node_preOrder f r

/-- `Node_postOrder` (src/binarytree.c:749-774). -/
def Node_postOrder (f : α → Option Unit) : NTree α → Option Unit
  | nil => some ()
  | node it l r _ _ =>
    match Node_postOrder f l with
    | none => none
    | some _ =>
      match Node_postOrder f r with
      | none => none
      | some _ => f it

/-- `Node_copytree` (src/binarytree.c:779-813): `memcpy` the node (copying
its item reference and `balance`/`height` fields) into a fresh node, then
recursively copy the non-`NULL` children.  The C function is only ever
called on a non-`NULL` root (`Subtree_maketree` guards it); `nil ↦ nil`
makes the embedding total. -/
def Node_copytree : NTree α → NTree α
  | nil => nil
  | node it l r b h => node it (Node_copytree l) (Node_copytree r) b h

/-- `Subtree_maketree` (src/binarytree.c:852-862) as it determines the new
tree's root.  The source only assigns `new->root` when `self->root` is
non-`NULL` (`if ( self->root ) new->root = Node_copytree(self->root);`);
when the Subtree is empty the freshly `PyObject_GC_New`-allocated root
field is left uninitialized, embedded here as `none`. -/
def Subtree_maketree_root : NTree α → Option (NTree α)
  | nil => none
  | node it l r b h => some (Node_copytree (node it l r b h))

/-- Whether every node of the tree stores balance `0` (used by the spec's
perfectly-balanced concrete scenario). -/
def allBalanceZero : NTree α → Bool
  | nil => true
  | node _ l r b _ => b = 0 && allBalanceZero l && allBalanceZero r

/-- In-order item sequence of a tree (the sequence of visitor calls made by
`Node_inOrder` with a never-failing visitor). -/
def inorder : NTree α → List α
  | nil => []
  | node it l r _ _ => inorder l ++ it :: inorder r

/-- The AVL bookkeeping invariant, node-wise: every node's `height` field is
`1 + max(height(lchild), height(rchild))` (a `NULL` child counting as `0`),
its `balance` field is `height(rchild) - height(lchild)`, and
`|balance| ≤ 1`. -/
def wfB : NTree α → Bool
  | nil => true
  | node _ l r b h =>
    wfB l && wfB r && decide (h = 1 + max (heightOf l) (heightOf r)) &&
      decide (b = heightOf r - heightOf l) && decide (b ≤ 1) && decide (-1 ≤ b)

/-- Embedding of `PyObject_Compare` on Python integers: a total order that
never raises. -/
def icmp (x y : Int) : Option Ordering :=
  some (if x < y then Ordering.lt else if x = y then Ordering.eq else Ordering.gt)

/-- A mutation issued through the Python-level API. -/
inductive Op where
  | ins (x : Int)
  | del (x : Int)
deriving DecidableEq, Repr

/-- One Python-level mutating call on a `BinaryTree` holding integers. -/
def applyOp (t : NTree Int) : Op → NTree Int
  | Op.ins x => BT_insert_root icmp t x
  | Op.del x => BT_remove_root icmp t x

/-- The tree state after a sequence of insert/remove calls starting from
the empty tree (`BinaryTree()` leaves `root` as `NULL`). -/
def applyOps (ops : List Op) : NTree Int :=
  ops.foldl applyOp nil

/-- One step of the specification-side bookkeeping "is `y` currently in the
collection": an insert of `y` makes it present, a remove of `y` makes it
absent, anything else leaves it alone. -/
def liveStep (y : Int) (b : Bool) : Op → Bool
  | Op.ins x => if x = y then true else b
  | Op.del x => if x = y then false else b

/-- Whether `y` "was inserted at some point in the sequence and not removed
afterwards", read off the operation sequence directly. -/
def liveAfter (ops : List Op) (y : Int) : Bool :=
  ops.foldl (liveStep y) false

/-- Sorted-insertion-without-duplicates on lists: the list-level effect of
`Node_insert` on the in-order sequence of a sorted tree. -/
def insList (x : Int) : List Int → List Int
  | [] => [x]
  | y :: ys => if x < y then x :: y :: ys else if x = y then y :: ys else y :: insList x ys

/-- Ghost observation of `Node_remove`'s control flow: `true` iff the
removal, run on this tree and target, ever enters the two-children case
(src/binarytree.c:532-544).  It follows exactly the branch structure of
`Node_remove`; once the two-children case is entered the answer is `true`
regardless of the inner recursion. -/
def hitsTwo (cmp : α → α → Option Ordering) : NTree α → α → Bool
  | nil, _ => false
  | node it l r b h, target =>
    match cmp it target with
    | none => false
    | some Ordering.eq =>
      if h = 1 && l.isNil && r.isNil && b = 0 then false
      else if !l.isNil && r.isNil then false
      else if l.isNil && !r.isNil then false
      else true
    | some Ordering.gt => hitsTwo cmp l target
    | some Ordering.lt => hitsTwo cmp r target

/-- A comparator that always fails: `PyObject_Compare` raising on every
pair (e.g. a user `__cmp__` that raises). -/
def failingCmp : Int → Int → Option Ordering := fun _ _ => none

/-- `BinaryTree_locate` viewed as a state transformer on the tree it is
called on.  The C loop (src/binarytree.c:656-678) only reads the local
`current` pointer and node fields; it contains no assignment to `self` or
to any node, so the post-state component is the tree as received. -/
def BinaryTree_locate_run (cmp : α → α → Option Ordering) (t : NTree α) (x : α) :
    Option (Option α) × NTree α :=
  (BinaryTree_locate cmp t x, t)

/-- `BinaryTree_contains` as a state transformer (src/binarytree.c:306-313:
only a call to `BinaryTree_locate` and a comparison of its result). -/
def BinaryTree_contains_run (cmp : α → α → Option Ordering) (t : NTree α) (x : α) :
    Option Bool × NTree α :=
  (BinaryTree_contains cmp t x, t)

/-- `BinaryTree_inOrder`/`Node_inOrder` as a state transformer
(src/binarytree.c:684-711, 818-824): the traversal reads child pointers and
items and calls the visitor, never assigning to any node field, also when
the visitor fails partway. -/
def BinaryTree_inOrder_run (f : α → Option Unit) (t : NTree α) :
    Option Unit × NTree α :=
  (Node_inOrder f t, t)

/-- `BinaryTree_preOrder`/`Node_preOrder` as a state transformer
(src/binarytree.c:717-743, 829-835). -/
def BinaryTree_preOrder_run (f : α → Option Unit) (t : NTree α) :
    Option Unit × NTree α :=
  (Node_preOrder f t, t)

/-- `BinaryTree_postOrder`/`Node_postOrder` as a state transformer
(src/binarytree.c:749-774, 840-846). -/
def BinaryTree_postOrder_run (f : α → Option Unit) (t : NTree α) :
    Option Unit × NTree α :=
  (Node_postOrder f t, t)

end NTree

/-! ## Basic lemmas -/

namespace NTree

variable {α : Type}

@[simp] theorem heightOf_nil : heightOf (nil : NTree α) = 0 := rfl

@[simp] theorem heightOf_node (it : α) (l r : NTree α) (b h : Int) :
    heightOf (node it l r b h) = h := rfl

@[simp] theorem balanceOf_nil : balanceOf (nil : NTree α) = 0 := rfl

@[simp] theorem balanceOf_node (it : α) (l r : NTree α) (b h : Int) :
    balanceOf (node it l r b h) = b := rfl

@[simp] theorem isNil_nil : isNil (nil : NTree α) = true := rfl

@[simp] theorem isNil_node (it : α) (l r : NTree α) (b h : Int) :
    isNil (node it l r b h) = false := rfl

@[simp] theorem itemOrD_node (it : α) (l r : NTree α) (b h : Int) (d : α) :
    itemOrD (node it l r b h) d = it := rfl

@[simp] theorem inorder_nil : inorder (nil : NTree α) = [] := rfl

@[simp] theorem inorder_node (it : α) (l r : NTree α) (b h : Int) :
    inorder (node it l r b h) = inorder l ++ it :: inorder r := rfl

@[simp] theorem wfB_nil : wfB (nil : NTree α) = true := rfl

theorem wfB_node_iff (it : α) (l r : NTree α) (b h : Int) :
    wfB (node it l r b h) = true ↔
      wfB l = true ∧ wfB r = true ∧ h = 1 + max (heightOf l) (heightOf r) ∧
        b = heightOf r - heightOf l ∧ b ≤ 1 ∧ -1 ≤ b := by
  simp [wfB, and_assoc]

theorem heightOf_nonneg : ∀ {t : NTree α}, wfB t = true → 0 ≤ heightOf t
  | nil, _ => le_refl 0
  | node it l r b h, hw => by
    rw [wfB_node_iff] at hw
    have hl := heightOf_nonneg hw.1
    have hr := heightOf_nonneg hw.2.1
    simp only [heightOf_node]
    omega

theorem heightOf_pos (it : α) (l r : NTree α) (b h : Int)
    (hw : wfB (node it l r b h) = true) : 1 ≤ h := by
  rw [wfB_node_iff] at hw
  have hl := heightOf_nonneg hw.1
  have hr := heightOf_nonneg hw.2.1
  omega

theorem ne_nil_of_one_le_height {t : NTree α} (h : 1 ≤ heightOf t) : t ≠ nil := by
  intro hn; rw [hn] at h; simp at h

@[simp] theorem inorder_rotateLeft : ∀ t : NTree α, inorder (rotateLeft t) = inorder t
  | nil => rfl
  | node _ _ nil _ _ => rfl
  | node it l (node rit rl rr rb rh) b h => by
    simp [rotateLeft, withHeight, withBalance]

@[simp] theorem inorder_rotateRight : ∀ t : NTree α, inorder (rotateRight t) = inorder t
  | nil => rfl
  | node _ nil _ _ _ => rfl
  | node it (node lit ll lr lb lh) r b h => by
    simp [rotateRight, withHeight, withBalance]

end NTree

/-! ## Rotation rebalancing lemmas

Each lemma describes one of the four rebalancing shapes shared by
`Node_insert` and `Node_remove`: a single or double rotation applied at a
root whose `balance` and `height` fields are about to be overwritten by the
rotation (so they are arbitrary `b`, `h` below). -/

namespace NTree

variable {α : Type}

theorem rotateRight_single_spec (it lit : α) (ll lr r : NTree α) (lb lh b h : Int)
    (hwl : wfB (node lit ll lr lb lh) = true) (hwr : wfB r = true)
    (hh : lh = heightOf r + 2) (hlb : lb ≤ 0) :
    wfB (rotateRight (node it (node lit ll lr lb lh) r b h)) = true ∧
    heightOf (rotateRight (node it (node lit ll lr lb lh) r b h)) =
      (if lb = 0 then lh + 1 else lh) := by
  rw [wfB_node_iff] at hwl
  obtain ⟨hwll, hwlr, hlh, hlbv, hlb1, hlb2⟩ := hwl
  have h0 := heightOf_nonneg hwll
  have h1 := heightOf_nonneg hwlr
  have h2 := heightOf_nonneg hwr
  constructor
  · simp only [rotateRight, withHeight, withBalance, heightOf_node, wfB_node_iff]
    simp only [hwll, hwlr, hwr, true_and]
    omega
  · simp only [rotateRight, withHeight, withBalance, heightOf_node]
    split <;> omega

theorem rotateLeft_single_spec (it rit : α) (l rl rr : NTree α) (rb rh b h : Int)
    (hwr : wfB (node rit rl rr rb rh) = true) (hwl : wfB l = true)
    (hh : rh = heightOf l + 2) (hrb : 0 ≤ rb) :
    wfB (rotateLeft (node it l (node rit rl rr rb rh) b h)) = true ∧
    heightOf (rotateLeft (node it l (node rit rl rr rb rh) b h)) =
      (if rb = 0 then rh + 1 else rh) := by
  rw [wfB_node_iff] at hwr
  obtain ⟨hwrl, hwrr, hrh, hrbv, hrb1, hrb2⟩ := hwr
  have h0 := heightOf_nonneg hwrl
  have h1 := heightOf_nonneg hwrr
  have h2 := heightOf_nonneg hwl
  constructor
  · simp only [rotateLeft, withHeight, withBalance, heightOf_node, wfB_node_iff]
    simp only [hwrl, hwrr, hwl, true_and]
    omega
  · simp only [rotateLeft, withHeight, withBalance, heightOf_node]
    split <;> omega

end NTree

namespace NTree

variable {α : Type}

theorem rotateRight_double_spec (it lit c : α) (ll cl cr r : NTree α)
    (lb lh cb ch b h : Int)
    (hwl : wfB (node lit ll (node c cl cr cb ch) lb lh) = true) (hwr : wfB r = true)
    (hh : lh = heightOf r + 2) (hlb : lb = 1) :
    wfB (rotateRight (node it (rotateLeft (node lit ll (node c cl cr cb ch) lb lh)) r b h))
      = true ∧
    heightOf (rotateRight (node it (rotateLeft (node lit ll (node c cl cr cb ch) lb lh)) r b h))
      = lh := by
  rw [wfB_node_iff] at hwl
  obtain ⟨hwll, hwc, hlh, hlbv, hlb1, hlb2⟩ := hwl
  rw [wfB_node_iff] at hwc
  obtain ⟨hwcl, hwcr, hch, hcbv, hcb1, hcb2⟩ := hwc
  simp only [heightOf_node] at hlh hlbv
  have h0 := heightOf_nonneg hwll
  have h1 := heightOf_nonneg hwcl
  have h2 := heightOf_nonneg hwcr
  have h3 := heightOf_nonneg hwr
  constructor
  · simp only [rotateLeft, rotateRight, withHeight, withBalance, heightOf_node, wfB_node_iff]
    simp only [hwll, hwcl, hwcr, hwr, true_and]
    omega
  · simp only [rotateLeft, rotateRight, withHeight, withBalance, heightOf_node]
    omega

theorem rotateLeft_double_spec (it rit c : α) (l cl cr rr : NTree α)
    (rb rh cb ch b h : Int)
    (hwr : wfB (node rit (node c cl cr cb ch) rr rb rh) = true) (hwl : wfB l = true)
    (hh : rh = heightOf l + 2) (hrb : rb = -1) :
    wfB (rotateLeft (node it l (rotateRight (node rit (node c cl cr cb ch) rr rb rh)) b h))
      = true ∧
    heightOf (rotateLeft (node it l (rotateRight (node rit (node c cl cr cb ch) rr rb rh)) b h))
      = rh := by
  rw [wfB_node_iff] at hwr
  obtain ⟨hwc, hwrr, hrh, hrbv, hrb1, hrb2⟩ := hwr
  rw [wfB_node_iff] at hwc
  obtain ⟨hwcl, hwcr, hch, hcbv, hcb1, hcb2⟩ := hwc
  simp only [heightOf_node] at hrh hrbv
  have h0 := heightOf_nonneg hwrr
  have h1 := heightOf_nonneg hwcl
  have h2 := heightOf_nonneg hwcr
  have h3 := heightOf_nonneg hwl
  constructor
  · simp only [rotateLeft, rotateRight, withHeight, withBalance, heightOf_node, wfB_node_iff]
    simp only [hwcl, hwcr, hwrr, hwl, true_and]
    omega
  · simp only [rotateLeft, rotateRight, withHeight, withBalance, heightOf_node]
    omega

end NTree

/-! ## Unwinding lemmas

Each lemma states what one unwinding step of `Node_insert`/`Node_remove`
produces, assuming the node's stored `balance`/`height` fields were
consistent before the mutation (expressed through the recorded child height
`ch`) and the recursive call changed the child's height by at most one in
the appropriate direction. -/

namespace NTree

variable {α : Type}

theorem unwindInsL_spec (it : α) (l r : NTree α) (b h ch : Int)
    (hwl : wfB l = true) (hwr : wfB r = true)
    (hb : b = heightOf r - ch) (hh : h = 1 + max ch (heightOf r))
    (hb1 : b ≤ 1) (hb2 : -1 ≤ b)
    (hd : heightOf l = ch ∨ heightOf l = ch + 1) :
    wfB (unwindInsL it l r b h ch) = true ∧
    inorder (unwindInsL it l r b h ch) = inorder l ++ it :: inorder r ∧
    (heightOf (unwindInsL it l r b h ch) = h ∨ heightOf (unwindInsL it l r b h ch) = h + 1) := by
  have hl0 := heightOf_nonneg hwl
  have hr0 := heightOf_nonneg hwr
  by_cases hch : heightOf l = ch
  · simp only [unwindInsL, if_pos hch]
    refine ⟨?_, rfl, Or.inl rfl⟩
    rw [wfB_node_iff]
    exact ⟨hwl, hwr, by omega, by omega, by omega, by omega⟩
  · have hch1 : heightOf l = ch + 1 := by
      rcases hd with h1 | h1
      · exact absurd h1 hch
      · exact h1
    simp only [unwindInsL, if_neg hch, withHeight, withBalance, heightOf_node,
      balanceOf_node]
    split
    · rename_i hbal
      refine ⟨?_, rfl, ?_⟩
      · rw [wfB_node_iff]
        exact ⟨hwl, hwr, rfl, rfl, by omega, by omega⟩
      · simp only [heightOf_node]
        omega
    · rename_i hbal
      have hlh : heightOf l = heightOf r + 2 := by omega
      cases l with
      | nil => exfalso; simp only [heightOf_nil] at hlh; omega
      | node lit ll lr lb lh2 =>
        simp only [heightOf_node] at hlh hch1
        simp only [heightOf_node, balanceOf_node]
        have hwl' := (wfB_node_iff _ _ _ _ _).mp hwl
        split
        · rename_i hlbeq
          cases lr with
          | nil =>
            exfalso
            obtain ⟨hwll, _, hlh2, hlbv, _, _⟩ := hwl'
            have := heightOf_nonneg hwll
            simp only [heightOf_nil] at hlbv
            omega
          | node c cl cr cb ch2 =>
            have hspec := rotateRight_double_spec it lit c ll cl cr r lb lh2 cb ch2
              (heightOf r - lh2) (1 + max lh2 (heightOf r)) hwl hwr hlh hlbeq
            simp only [setLchild]
            refine ⟨hspec.1, by simp, ?_⟩
            rw [hspec.2]
            omega
        · rename_i hlbne
          obtain ⟨hwll, hwlr, hlh2, hlbv, hlb1, hlb2⟩ := hwl'
          have hspec := rotateRight_single_spec it lit ll lr r lb lh2
            (heightOf r - lh2) (1 + max lh2 (heightOf r)) hwl hwr hlh (by omega)
          refine ⟨hspec.1, by simp, ?_⟩
          rw [hspec.2]
          split <;> omega

theorem unwindInsR_spec (it : α) (l r : NTree α) (b h ch : Int)
    (hwl : wfB l = true) (hwr : wfB r = true)
    (hb : b = ch - heightOf l) (hh : h = 1 + max (heightOf l) ch)
    (hb1 : b ≤ 1) (hb2 : -1 ≤ b)
    (hd : heightOf r = ch ∨ heightOf r = ch + 1) :
    wfB (unwindInsR it l r b h ch) = true ∧
    inorder (unwindInsR it l r b h ch) = inorder l ++ it :: inorder r ∧
    (heightOf (unwindInsR it l r b h ch) = h ∨ heightOf (unwindInsR it l r b h ch) = h + 1) := by
  have hl0 := heightOf_nonneg hwl
  have hr0 := heightOf_nonneg hwr
  by_cases hch : heightOf r = ch
  · simp only [unwindInsR, if_pos hch]
    refine ⟨?_, rfl, Or.inl rfl⟩
    rw [wfB_node_iff]
    exact ⟨hwl, hwr, by omega, by omega, by omega, by omega⟩
  · have hch1 : heightOf r = ch + 1 := by
      rcases hd with h1 | h1
      · exact absurd h1 hch
      · exact h1
    simp only [unwindInsR, if_neg hch, withHeight, withBalance, heightOf_node,
      balanceOf_node]
    split
    · rename_i hbal
      refine ⟨?_, rfl, ?_⟩
      · rw [wfB_node_iff]
        exact ⟨hwl, hwr, rfl, rfl, by omega, by omega⟩
      · simp only [heightOf_node]
        omega
    · rename_i hbal
      have hrh : heightOf r = heightOf l + 2 := by omega
      cases r with
      | nil => exfalso; simp only [heightOf_nil] at hrh; omega
      | node rit rl rr rb rh2 =>
        simp only [heightOf_node] at hrh hch1
        simp only [heightOf_node, balanceOf_node]
        have hwr' := (wfB_node_iff _ _ _ _ _).mp hwr
        split
        · rename_i hrbeq
          cases rl with
          | nil =>
            exfalso
            obtain ⟨_, hwrr, hrh2, hrbv, _, _⟩ := hwr'
            have := heightOf_nonneg hwrr
            simp only [heightOf_nil] at hrbv
            omega
          | node c cl cr cb ch2 =>
            have hspec := rotateLeft_double_spec it rit c l cl cr rr rb rh2 cb ch2
              (rh2 - heightOf l) (1 + max (heightOf l) rh2) hwr hwl hrh hrbeq
            simp only [setRchild]
            refine ⟨hspec.1, by simp, ?_⟩
            rw [hspec.2]
            omega
        · rename_i hrbne
          obtain ⟨hwrl, hwrr, hrh2, hrbv, hrb1, hrb2⟩ := hwr'
          have hspec := rotateLeft_single_spec it rit l rl rr rb rh2
            (rh2 - heightOf l) (1 + max (heightOf l) rh2) hwr hwl hrh (by omega)
          refine ⟨hspec.1, by simp, ?_⟩
          rw [hspec.2]
          split <;> omega

theorem unwindRemL_spec (it : α) (l r : NTree α) (ch : Int)
    (hwl : wfB l = true) (hwr : wfB r = true)
    (hb1 : heightOf r - ch ≤ 1) (hb2 : -1 ≤ heightOf r - ch)
    (hd : heightOf l = ch ∨ heightOf l = ch - 1) :
    wfB (unwindRemL it l r ch) = true ∧
    inorder (unwindRemL it l r ch) = inorder l ++ it :: inorder r ∧
    (heightOf (unwindRemL it l r ch) = 1 + max ch (heightOf r) ∨
      heightOf (unwindRemL it l r ch) + 1 = 1 + max ch (heightOf r)) := by
  have hl0 := heightOf_nonneg hwl
  have hr0 := heightOf_nonneg hwr
  simp only [unwindRemL, withHeight, withBalance, heightOf_node, balanceOf_node]
  split
  · rename_i hcond
    simp only [Bool.and_eq_true, Bool.not_eq_eq_eq_not, Bool.not_true, decide_eq_true_eq]
      at hcond
    refine ⟨?_, rfl, ?_⟩
    · rw [wfB_node_iff]
      exact ⟨hwl, hwr, rfl, rfl, by omega, by omega⟩
    · simp only [heightOf_node]
      omega
  · split
    · rename_i hbal
      refine ⟨?_, rfl, ?_⟩
      · rw [wfB_node_iff]
        exact ⟨hwl, hwr, rfl, rfl, by omega, by omega⟩
      · simp only [heightOf_node]
        omega
    · rename_i hcond hbal
      have hrh : heightOf r = heightOf l + 2 := by omega
      have hlch : heightOf l = ch - 1 := by omega
      cases r with
      | nil => exfalso; simp only [heightOf_nil] at hrh; omega
      | node rit rl rr rb rh2 =>
        simp only [heightOf_node] at hrh
        simp only [heightOf_node, balanceOf_node]
        have hwr' := (wfB_node_iff _ _ _ _ _).mp hwr
        split
        · rename_i hrbne
          simp only [bne_iff_ne, ne_eq] at hrbne
          obtain ⟨hwrl, hwrr, hrh2, hrbv, hrb1, hrb2⟩ := hwr'
          have hspec := rotateLeft_single_spec it rit l rl rr rb rh2
            (rh2 - heightOf l) (1 + max (heightOf l) rh2) hwr hwl hrh (by omega)
          refine ⟨hspec.1, by simp, ?_⟩
          rw [hspec.2]
          split <;> omega
        · rename_i hrbeq
          simp only [bne_iff_ne, ne_eq, Decidable.not_not] at hrbeq
          cases rl with
          | nil =>
            exfalso
            obtain ⟨_, hwrr, hrh2, hrbv, _, _⟩ := hwr'
            have := heightOf_nonneg hwrr
            simp only [heightOf_nil] at hrbv
            omega
          | node c cl cr cb ch2 =>
            have hspec := rotateLeft_double_spec it rit c l cl cr rr rb rh2 cb ch2
              (rh2 - heightOf l) (1 + max (heightOf l) rh2) hwr hwl hrh hrbeq
            simp only [setRchild]
            refine ⟨hspec.1, by simp, ?_⟩
            rw [hspec.2]
            omega

theorem unwindRemR_spec (it : α) (l r : NTree α) (ch : Int)
    (hwl : wfB l = true) (hwr : wfB r = true)
    (hb1 : ch - heightOf l ≤ 1) (hb2 : -1 ≤ ch - heightOf l)
    (hd : heightOf r = ch ∨ heightOf r = ch - 1) :
    wfB (unwindRemR it l r ch) = true ∧
    inorder (unwindRemR it l r ch) = inorder l ++ it :: inorder r ∧
    (heightOf (unwindRemR it l r ch) = 1 + max (heightOf l) ch ∨
      heightOf (unwindRemR it l r ch) + 1 = 1 + max (heightOf l) ch) := by
  have hl0 := heightOf_nonneg hwl
  have hr0 := heightOf_nonneg hwr
  simp only [unwindRemR, withHeight, withBalance, heightOf_node, balanceOf_node]
  split
  · rename_i hcond
    simp only [Bool.and_eq_true, Bool.not_eq_eq_eq_not, Bool.not_true, decide_eq_true_eq]
      at hcond
    refine ⟨?_, rfl, ?_⟩
    · rw [wfB_node_iff]
      exact ⟨hwl, hwr, rfl, rfl, by omega, by omega⟩
    · simp only [heightOf_node]
      omega
  · split
    · rename_i hbal
      refine ⟨?_, rfl, ?_⟩
      · rw [wfB_node_iff]
        exact ⟨hwl, hwr, rfl, rfl, by omega, by omega⟩
      · simp only [heightOf_node]
        omega
    · rename_i hcond hbal
      have hlh : heightOf l = heightOf r + 2 := by omega
      have hrch : heightOf r = ch - 1 := by omega
      cases l with
      | nil => exfalso; simp only [heightOf_nil] at hlh; omega
      | node lit ll lr lb lh2 =>
        simp only [heightOf_node] at hlh
        simp only [heightOf_node, balanceOf_node]
        have hwl' := (wfB_node_iff _ _ _ _ _).mp hwl
        split
        · rename_i hlbne
          simp only [bne_iff_ne, ne_eq] at hlbne
          obtain ⟨hwll, hwlr, hlh2, hlbv, hlb1, hlb2⟩ := hwl'
          have hspec := rotateRight_single_spec it lit ll lr r lb lh2
            (heightOf r - lh2) (1 + max lh2 (heightOf r)) hwl hwr hlh (by omega)
          refine ⟨hspec.1, by simp, ?_⟩
          rw [hspec.2]
          split <;> omega
        · rename_i hlbeq
          simp only [bne_iff_ne, ne_eq, Decidable.not_not] at hlbeq
          cases lr with
          | nil =>
            exfalso
            obtain ⟨hwll, _, hlh2, hlbv, _, _⟩ := hwl'
            have := heightOf_nonneg hwll
            simp only [heightOf_nil] at hlbv
            omega
          | node c cl cr cb ch2 =>
            have hspec := rotateRight_double_spec it lit c ll cl cr r lb lh2 cb ch2
              (heightOf r - lh2) (1 + max lh2 (heightOf r)) hwl hwr hlh hlbeq
            simp only [setLchild]
            refine ⟨hspec.1, by simp, ?_⟩
            rw [hspec.2]
            omega

/-! ## Comparator and list-level lemmas -/

theorem icmp_lt {x y : Int} (h : x < y) : icmp x y = some Ordering.lt := by
  simp [icmp, h]

theorem icmp_eq (x : Int) : icmp x x = some Ordering.eq := by
  simp [icmp]

theorem icmp_gt {x y : Int} (h : y < x) : icmp x y = some Ordering.gt := by
  have h1 : ¬ x < y := by omega
  have h2 : ¬ x = y := by omega
  simp [icmp, h1, h2]

theorem mem_insList (x z : Int) : ∀ l : List Int, z ∈ insList x l ↔ z = x ∨ z ∈ l
  | [] => by simp [insList]
  | y :: ys => by
    simp only [insList]
    split
    · simp
    · split
      · rename_i hxy
        subst hxy
        simp only [List.mem_cons]
        tauto
      · simp only [List.mem_cons, mem_insList x z ys]
        tauto

theorem insList_of_mem (x : Int) :
    ∀ l : List Int, l.Pairwise (· < ·) → x ∈ l → insList x l = l
  | [], _, hm => absurd hm (by simp)
  | y :: ys, hp, hm => by
    simp only [insList]
    rcases List.mem_cons.mp hm with h1 | h1
    · subst h1
      simp
    · have hy : y < x := (List.pairwise_cons.mp hp).1 x h1
      rw [if_neg (by omega), if_neg (by omega),
        insList_of_mem x ys (List.pairwise_cons.mp hp).2 h1]

theorem pairwise_insList (x : Int) :
    ∀ l : List Int, l.Pairwise (· < ·) → (insList x l).Pairwise (· < ·)
  | [], _ => by simp [insList]
  | y :: ys, hp => by
    obtain ⟨hhead, htail⟩ := List.pairwise_cons.mp hp
    simp only [insList]
    split
    · rename_i hxy
      exact List.pairwise_cons.mpr ⟨by
        intro b hb
        rcases List.mem_cons.mp hb with h1 | h1
        · omega
        · have := hhead b h1; omega, hp⟩
    · split
      · exact hp
      · rename_i hxy1 hxy2
        exact List.pairwise_cons.mpr ⟨by
          intro b hb
          rcases (mem_insList x b ys).mp hb with h1 | h1
          · omega
          · exact hhead b h1, pairwise_insList x ys htail⟩

theorem insList_append_of_lt {x it : Int} (hx : x < it) (B : List Int) :
    ∀ A : List Int, insList x (A ++ it :: B) = insList x A ++ it :: B
  | [] => by simp [insList, hx]
  | a :: A => by
    simp only [List.cons_append, insList]
    split
    · simp
    · split
      · simp
      · simp only [List.cons_append, List.cons.injEq, true_and]
        exact insList_append_of_lt hx B A

theorem insList_append_of_gt {x it : Int} (hx : it < x) (B : List Int) :
    ∀ A : List Int, (∀ a ∈ A, a < x) →
      insList x (A ++ it :: B) = A ++ it :: insList x B
  | [], _ => by
    simp only [List.nil_append, insList]
    rw [if_neg (by omega), if_neg (by omega)]
  | a :: A, hA => by
    have ha : a < x := hA a (by simp)
    simp only [List.cons_append, insList]
    rw [if_neg (by omega), if_neg (by omega)]
    simp only [List.cons.injEq, true_and]
    exact insList_append_of_gt hx B A (by intro b hb; exact hA b (by simp [hb]))

/-! ## Insertion specification -/

theorem Node_insert_spec (x : Int) :
    ∀ t : NTree Int, wfB t = true → (inorder t).Pairwise (· < ·) →
      ∃ t2, Node_insert icmp t x = some t2 ∧ wfB t2 = true ∧
        (heightOf t2 = heightOf t ∨ heightOf t2 = heightOf t + 1) ∧
        inorder t2 = insList x (inorder t) ∧
        (x ∈ inorder t → t2 = t)
  | nil, _, _ =>
    ⟨node x nil nil 0 1, rfl, by simp [wfB_node_iff], by simp, by simp [insList], by simp⟩
  | node it l r b h, hw, hpw => by
    obtain ⟨hwl, hwr, hh, hb, hb1, hb2⟩ := (wfB_node_iff _ _ _ _ _).mp hw
    rw [inorder_node] at hpw
    obtain ⟨hpl, hpitr, hcross⟩ := List.pairwise_append.mp hpw
    obtain ⟨hitr, hpr⟩ := List.pairwise_cons.mp hpitr
    rcases lt_trichotomy it x with hlt | heq | hgt
    · obtain ⟨r2, hr2, hwr2, hhr2, hir2, hdup2⟩ := Node_insert_spec x r hwr hpr
      have hu := unwindInsR_spec it l r2 b h (heightOf r) hwl hwr2 hb hh hb1 hb2 hhr2
      refine ⟨unwindInsR it l r2 b h (heightOf r), ?_, hu.1, ?_, ?_, ?_⟩
      · simp only [Node_insert, icmp_lt hlt, hr2]
    
      · simpa using hu.2.2
      · rw [inorder_node, hu.2.1, hir2, insList_append_of_gt hlt (inorder r) (inorder l) ?_]
        intro a ha
        exact lt_trans (hcross a ha it (by simp)) hlt
      · intro hmem
        have hxr : x ∈ inorder r := by
          simp only [inorder_node, List.mem_append, List.mem_cons] at hmem
          rcases hmem with h1 | h1 | h1
          · have := hcross x h1 it (by simp)
            omega
          · omega
          · exact h1
        rw [hdup2 hxr]
        simp [unwindInsR]
    · subst heq
      refine ⟨node it l r b h, ?_, hw, Or.inl rfl, ?_, fun _ => rfl⟩
      · simp only [Node_insert, icmp_eq]
      · rw [inorder_node]
        exact (insList_of_mem it _ hpw (by simp)).symm
    · obtain ⟨l2, hl2, hwl2, hhl2, hil2, hdup2⟩ := Node_insert_spec x l hwl hpl
      have hu := unwindInsL_spec it l2 r b h (heightOf l) hwl2 hwr hb hh hb1 hb2 hhl2
      refine ⟨unwindInsL it l2 r b h (heightOf l), ?_, hu.1, ?_, ?_, ?_⟩
      · simp only [Node_insert, icmp_gt hgt, hl2]
      · simpa using hu.2.2
      · rw [inorder_node, hu.2.1, hil2, insList_append_of_lt hgt (inorder r) (inorder l)]
      · intro hmem
        have hxl : x ∈ inorder l := by
          simp only [inorder_node, List.mem_append, List.mem_cons] at hmem
          rcases hmem with h1 | h1 | h1
          · exact h1
          · omega
          · have := hitr x h1
            omega
        rw [hdup2 hxl]
        simp [unwindInsL]

/-! ## Removal helper lemmas -/

theorem eq_nil_of_height_zero : ∀ {t : NTree α}, wfB t = true → heightOf t = 0 → t = nil
  | nil, _, _ => rfl
  | node it l r b h, hw, hz => by
    have := heightOf_pos it l r b h hw
    simp only [heightOf_node] at hz
    omega

theorem erase_append_middle (x it : Int) (hx : it ≠ x) :
    ∀ A : List Int, x ∉ A → ∀ B, (A ++ it :: B).erase x = A ++ it :: B.erase x
  | [], _, B => by
    simp only [List.nil_append, List.erase_cons, beq_iff_eq, if_neg hx]
  | a :: A, hA, B => by
    have ha : a ≠ x := fun e => hA (by simp [e])
    simp only [List.cons_append, List.erase_cons, beq_iff_eq, if_neg ha,
      List.cons.injEq, true_and]
    exact erase_append_middle x it hx A (fun hc => hA (by simp [hc])) B

theorem erase_append_self (it : Int) :
    ∀ A : List Int, it ∉ A → ∀ B, (A ++ it :: B).erase it = A ++ B
  | [], _, B => by simp [List.erase_cons]
  | a :: A, hA, B => by
    have ha : a ≠ it := fun e => hA (by simp [e])
    simp only [List.cons_append, List.erase_cons, beq_iff_eq, if_neg ha,
      List.cons.injEq, true_and]
    exact erase_append_self it A (fun hc => hA (by simp [hc])) B

theorem erase_append_left_own (x : Int) :
    ∀ A : List Int, x ∈ A → ∀ C, (A ++ C).erase x = A.erase x ++ C
  | [], hm, _ => absurd hm (by simp)
  | a :: A, hm, C => by
    by_cases hax : a = x
    · simp [List.erase_cons, hax]
    · have hxA : x ∈ A := by
        rcases List.mem_cons.mp hm with h1 | h1
        · exact absurd h1.symm hax
        · exact h1
      simp only [List.cons_append, List.erase_cons, beq_iff_eq, if_neg hax,
        List.cons.injEq, true_and]
      exact erase_append_left_own x A hxA C

theorem swapRightmost_wf (x : α) :
    ∀ t : NTree α, wfB t = true →
      wfB (swapRightmost x t).2 = true ∧ heightOf (swapRightmost x t).2 = heightOf t
  | nil, _ => ⟨rfl, rfl⟩
  | node it l nil b h, hw => by
    obtain ⟨hwl, hwr, hh, hb, hb1, hb2⟩ := (wfB_node_iff _ _ _ _ _).mp hw
    simp only [swapRightmost, heightOf_node]
    exact ⟨(wfB_node_iff _ _ _ _ _).mpr ⟨hwl, hwr, hh, hb, hb1, hb2⟩, trivial⟩
  | node it l (node rit rl rr rb rh) b h, hw => by
    obtain ⟨hwl, hwr, hh, hb, hb1, hb2⟩ := (wfB_node_iff _ _ _ _ _).mp hw
    obtain ⟨hw2, hh2⟩ := swapRightmost_wf x (node rit rl rr rb rh) hwr
    simp only [swapRightmost, heightOf_node]
    refine ⟨(wfB_node_iff _ _ _ _ _).mpr ⟨hwl, hw2, ?_, ?_, hb1, hb2⟩, trivial⟩
    · rw [hh2]; exact hh
    · rw [hh2]; exact hb

theorem swapRightmost_inorder (x : α) :
    ∀ t : NTree α, t ≠ nil →
      ∃ A a, inorder t = A ++ [a] ∧ (swapRightmost x t).1 = a ∧
        inorder (swapRightmost x t).2 = A ++ [x]
  | nil, hne => absurd rfl hne
  | node it l nil b h, _ =>
    ⟨inorder l, it, by simp [swapRightmost], by simp [swapRightmost], by simp [swapRightmost]⟩
  | node it l (node rit rl rr rb rh) b h, _ => by
    obtain ⟨A, a, hA, h1, h2⟩ :=
      swapRightmost_inorder x (node rit rl rr rb rh) (by intro hc; cases hc)
    refine ⟨inorder l ++ it :: A, a, ?_, ?_, ?_⟩
    · rw [inorder_node, hA]; simp
    · simpa [swapRightmost] using h1
    · simp only [swapRightmost, inorder_node, h2]; simp

theorem unwindRemL_self (it : α) (l r : NTree α) (b h : Int)
    (hb : b = heightOf r - heightOf l) (hh : h = 1 + max (heightOf l) (heightOf r))
    (hb1 : b ≤ 1) (hb2 : -1 ≤ b) :
    unwindRemL it l r (heightOf l) = node it l r b h := by
  simp only [unwindRemL, withHeight, withBalance, heightOf_node, balanceOf_node]
  cases l with
  | nil =>
    simp only [heightOf_nil] at hb hh ⊢
    simp only [isNil_nil, Bool.not_true, Bool.false_and, Bool.false_eq_true, if_false]
    rw [if_pos (by omega)]
    simp only [node.injEq, true_and]
    omega
  | node lit ll lr lb lh2 =>
    simp only [heightOf_node] at hb hh ⊢
    rw [if_pos (by simp)]
    simp only [node.injEq, true_and]
    omega

theorem unwindRemR_self (it : α) (l r : NTree α) (b h : Int)
    (hb : b = heightOf r - heightOf l) (hh : h = 1 + max (heightOf l) (heightOf r))
    (hb1 : b ≤ 1) (hb2 : -1 ≤ b) :
    unwindRemR it l r (heightOf r) = node it l r b h := by
  simp only [unwindRemR, withHeight, withBalance, heightOf_node, balanceOf_node]
  cases r with
  | nil =>
    simp only [heightOf_nil] at hb hh ⊢
    simp only [isNil_nil, Bool.not_true, Bool.false_and, Bool.false_eq_true, if_false]
    rw [if_pos (by omega)]
    simp only [node.injEq, true_and]
    omega
  | node rit rl rr rb rh2 =>
    simp only [heightOf_node] at hb hh ⊢
    rw [if_pos (by simp)]
    simp only [node.injEq, true_and]
    omega

/-! ## Removal specification -/

theorem Node_remove_spec (x : Int) :
    ∀ (n : Nat) (t : NTree Int), size t ≤ n → wfB t = true →
      (inorder t).Pairwise (· < ·) →
      ∃ t2, Node_remove icmp t x = some t2 ∧ wfB t2 = true ∧
        (heightOf t2 = heightOf t ∨ heightOf t2 + 1 = heightOf t) ∧
        inorder t2 = (inorder t).erase x ∧
        (x ∉ inorder t → t2 = t)
  | _, nil, _, _, _ => ⟨nil, by simp [Node_remove], rfl, Or.inl rfl, by simp, fun _ => rfl⟩
  | 0, node it l r b h, hsz, _, _ => by simp [size] at hsz
  | Nat.succ n, node it l r b h, hsz, hw, hpw => by
    obtain ⟨hwl, hwr, hh, hb, hb1, hb2⟩ := (wfB_node_iff _ _ _ _ _).mp hw
    rw [inorder_node] at hpw
    obtain ⟨hpl, hpitr, hcross⟩ := List.pairwise_append.mp hpw
    obtain ⟨hitr, hpr⟩ := List.pairwise_cons.mp hpitr
    have hl0 := heightOf_nonneg hwl
    have hr0 := heightOf_nonneg hwr
    simp only [size] at hsz
    rcases lt_trichotomy it x with hlt | heq | hgt
    · -- descend right
      obtain ⟨r2, hr2, hwr2, hhr2, hir2, hnm2⟩ :=
        Node_remove_spec x n r (by omega) hwr hpr
      have hu := unwindRemR_spec it l r2 (heightOf r) hwl hwr2 (by omega) (by omega)
        (by omega)
      refine ⟨unwindRemR it l r2 (heightOf r), ?_, hu.1, ?_, ?_, ?_⟩
      · simp only [Node_remove, icmp_lt hlt, hr2]
      · have := hu.2.2
        simp only [heightOf_node]
        omega
      · rw [inorder_node, hu.2.1, hir2]
        have hxnl : x ∉ inorder l := by
          intro hc
          have := hcross x hc it (by simp)
          omega
        rw [erase_append_middle x it (by omega) (inorder l) hxnl (inorder r)]
      · intro hnm
        have hxr : x ∉ inorder r := by
          intro hc
          exact hnm (by simp [hc])
        rw [hnm2 hxr]
        exact unwindRemR_self it l r b h hb hh hb1 hb2
    · -- matched node
      subst heq
      by_cases hlnil : l = nil
      · by_cases hrnil : r = nil
        · -- leaf
          subst hlnil; subst hrnil
          refine ⟨nil, ?_, rfl, ?_, ?_, ?_⟩
          · simp only [heightOf_nil] at hh hb
            simp [Node_remove, icmp_eq, hh, hb]
          · simp only [heightOf_nil, heightOf_node] at hh ⊢
            omega
          · simp [List.erase_cons]
          · intro hnm
            exact absurd (by simp) hnm
        · -- only a right child
          subst hlnil
          cases r with
          | nil => exact absurd rfl hrnil
          | node rit rl rr rb2 rh2 =>
            obtain ⟨hwrl, hwrr, hrh, hrb, hrb1, hrb2⟩ := (wfB_node_iff _ _ _ _ _).mp hwr
            have hr1 : rh2 = 1 := by
              have h1 := heightOf_nonneg hwrl
              have h2 := heightOf_nonneg hwrr
              simp only [heightOf_nil, heightOf_node] at hb
              omega
            have hrlnil : rl = nil :=
              eq_nil_of_height_zero hwrl (by
                have := heightOf_nonneg hwrl
                have := heightOf_nonneg hwrr
                omega)
            have hrrnil : rr = nil :=
              eq_nil_of_height_zero hwrr (by
                have := heightOf_nonneg hwrl
                have := heightOf_nonneg hwrr
                omega)
            subst hrlnil; subst hrrnil
            refine ⟨node rit nil nil 0 1, ?_, ?_, ?_, ?_, ?_⟩
            · have hhne : ¬ h = 1 := by
                simp only [heightOf_nil, heightOf_node] at hh
                omega
              simp [Node_remove, icmp_eq, hhne]
            · simp [wfB_node_iff]
            · simp only [heightOf_nil, heightOf_node] at hh ⊢
              omega
            · simp only [inorder_node, inorder_nil, List.nil_append]
              simp [List.erase_cons]
            · intro hnm
              exact absurd (by simp) hnm
        
      · by_cases hrnil : r = nil
        · -- only a left child
          subst hrnil
          cases l with
          | nil => exact absurd rfl hlnil
          | node lit ll lr lb2 lh2 =>
            obtain ⟨hwll, hwlr, hlh, hlb, hlb1, hlb2⟩ := (wfB_node_iff _ _ _ _ _).mp hwl
            have hl1 : lh2 = 1 := by
              have h1 := heightOf_nonneg hwll
              have h2 := heightOf_nonneg hwlr
              simp only [heightOf_nil, heightOf_node] at hb
              omega
            have hllnil : ll = nil :=
              eq_nil_of_height_zero hwll (by
                have := heightOf_nonneg hwll
                have := heightOf_nonneg hwlr
                omega)
            have hlrnil : lr = nil :=
              eq_nil_of_height_zero hwlr (by
                have := heightOf_nonneg hwll
                have := heightOf_nonneg hwlr
                omega)
            subst hllnil; subst hlrnil
            refine ⟨node lit nil nil 0 1, ?_, ?_, ?_, ?_, ?_⟩
            · have hhne : ¬ h = 1 := by
                simp only [heightOf_nil, heightOf_node] at hh
                omega
              simp [Node_remove, icmp_eq, hhne]
            · simp [wfB_node_iff]
            · simp only [heightOf_nil, heightOf_node] at hh ⊢
              omega
            · have hlitne : lit ≠ it := by
                have := hcross lit (by simp) it (by simp)
                omega
              simp only [inorder_node, inorder_nil, List.nil_append]
              simp [List.erase_cons, hlitne]
            · intro hnm
              exact absurd (by simp) hnm
        · -- two children
          cases l with
          | nil => exact absurd rfl hlnil
          | node lit ll lr lb2 lh2 =>
            cases r with
            | nil => exact absurd rfl hrnil
            | node rit rl rr rb2 rh2 =>
              obtain ⟨hw2, hh2⟩ := swapRightmost_wf it (node lit ll lr lb2 lh2) hwl
              obtain ⟨A, a, hAeq, ha1, ha2⟩ := swapRightmost_inorder it (node lit ll lr lb2 lh2) (by intro hc; cases hc)
              have hAlt : ∀ y ∈ A, y < it := by
                intro y hy
                exact hcross y (by rw [hAeq]; simp [hy]) it (by simp)
              have halt : a < it := hcross a (by rw [hAeq]; simp) it (by simp)
              have hApw : (inorder (swapRightmost it (node lit ll lr lb2 lh2)).2).Pairwise (· < ·) := by
                rw [ha2]
                rw [List.pairwise_append]
                refine ⟨?_, by simp, ?_⟩
                · have := hpl
                  rw [hAeq, List.pairwise_append] at this
                  exact this.1
                · intro y hy z hz
                  simp only [List.mem_singleton] at hz
                  subst hz
                  exact hAlt y hy
              have hsw_sz : size (swapRightmost it (node lit ll lr lb2 lh2)).2 = size (node lit ll lr lb2 lh2) := size_swapRightmost it (node lit ll lr lb2 lh2)
              obtain ⟨l2, hl2eq, hwl2, hhl2, hil2, _⟩ :=
                Node_remove_spec it n (swapRightmost it (node lit ll lr lb2 lh2)).2
                  (by rw [hsw_sz]; simp only [size] at hsz ⊢; omega) hw2 hApw
              have hitA : it ∉ A := by
                intro hc
                have := hAlt it hc
                omega
              have hil2A : inorder l2 = A := by
                rw [hil2, ha2]
                have := erase_append_self it A hitA []
                simpa using this
              have hu := unwindRemL_spec a l2 (node rit rl rr rb2 rh2)
                (heightOf (swapRightmost it (node lit ll lr lb2 lh2)).2) hwl2 hwr
                (by rw [hh2]; omega) (by rw [hh2]; omega)
                (by omega)
              refine ⟨unwindRemL (swapRightmost it (node lit ll lr lb2 lh2)).1 l2 (node rit rl rr rb2 rh2)
                (heightOf (swapRightmost it (node lit ll lr lb2 lh2)).2), ?_, ?_, ?_, ?_, ?_⟩
              · simp only [Node_remove, icmp_eq, isNil_node, Bool.and_false,
                  Bool.false_and, Bool.false_eq_true, if_false, hl2eq]
              · rw [ha1]; exact hu.1
              · rw [ha1]
                have := hu.2.2
                rw [hh2] at this
                simp only [heightOf_node] at this ⊢
                omega
              · rw [ha1, inorder_node, hu.2.1, hil2A, hAeq]
                have hnotm : it ∉ A ++ [a] := by
                  simp only [List.mem_append, List.mem_singleton]
                  rintro (hc | hc)
                  · exact hitA hc
                  · omega
                rw [erase_append_self it (A ++ [a]) hnotm (inorder (node rit rl rr rb2 rh2))]
                simp
              · intro hnm
                exact absurd (by simp) hnm
    · -- descend left
      obtain ⟨l2, hl2, hwl2, hhl2, hil2, hnm2⟩ :=
        Node_remove_spec x n l (by omega) hwl hpl
      have hu := unwindRemL_spec it l2 r (heightOf l) hwl2 hwr (by omega) (by omega)
        (by omega)
      refine ⟨unwindRemL it l2 r (heightOf l), ?_, hu.1, ?_, ?_, ?_⟩
      · simp only [Node_remove, icmp_gt hgt, hl2]
      · have := hu.2.2
        simp only [heightOf_node]
        omega
      · rw [inorder_node, hu.2.1, hil2]
        by_cases hxl : x ∈ inorder l
        · rw [erase_append_left_own x (inorder l) hxl]
        · rw [List.erase_of_not_mem hxl,
            erase_append_middle x it (by omega) (inorder l) hxl (inorder r)]
          have hxnr : x ∉ inorder r := by
            intro hc
            have := hitr x hc
            omega
          rw [List.erase_of_not_mem hxnr]
      · intro hnm
        have hxl : x ∉ inorder l := by
          intro hc
          exact hnm (by simp [hc])
        rw [hnm2 hxl]
        exact unwindRemL_self it l r b h hb hh hb1 hb2

end NTree

/-! ## Lookup specification and the reachable-state invariant -/

namespace NTree

theorem BinaryTree_locate_spec :
    ∀ t : NTree Int, (inorder t).Pairwise (· < ·) → ∀ x : Int,
      BinaryTree_locate icmp t x = some (if x ∈ inorder t then some x else none)
  | nil, _, x => by simp [BinaryTree_locate]
  | node it l r b h, hpw, x => by
    rw [inorder_node] at hpw
    obtain ⟨hpl, hpitr, hcross⟩ := List.pairwise_append.mp hpw
    obtain ⟨hitr, hpr⟩ := List.pairwise_cons.mp hpitr
    rcases lt_trichotomy it x with hlt | heq | hgt
    · rw [show BinaryTree_locate icmp (node it l r b h) x = BinaryTree_locate icmp r x from by
        simp [BinaryTree_locate, icmp_lt hlt]]
      rw [BinaryTree_locate_spec r hpr x]
      by_cases hm : x ∈ inorder r
      · simp [hm]
      · have hnm : ¬ x ∈ inorder l ++ it :: inorder r := by
          simp only [List.mem_append, List.mem_cons]
          push_neg
          refine ⟨?_, by omega, hm⟩
          intro hc
          have := hcross x hc it (by simp)
          omega
        simp [hm, hnm]
    · subst heq
      simp [BinaryTree_locate, icmp_eq]
    · rw [show BinaryTree_locate icmp (node it l r b h) x = BinaryTree_locate icmp l x from by
        simp [BinaryTree_locate, icmp_gt hgt]]
      rw [BinaryTree_locate_spec l hpl x]
      by_cases hm : x ∈ inorder l
      · simp [hm]
      · have hnm : ¬ x ∈ inorder l ++ it :: inorder r := by
          simp only [List.mem_append, List.mem_cons]
          push_neg
          refine ⟨hm, by omega, ?_⟩
          intro hc
          have := hitr x hc
          omega
        simp [hm, hnm]

theorem foldl_applyOp_spec :
    ∀ (ops : List Op) (t : NTree Int), wfB t = true → (inorder t).Pairwise (· < ·) →
      wfB (ops.foldl applyOp t) = true ∧
      (inorder (ops.foldl applyOp t)).Pairwise (· < ·) ∧
      ∀ y : Int, decide (y ∈ inorder (ops.foldl applyOp t)) =
        ops.foldl (liveStep y) (decide (y ∈ inorder t))
  | [], _, hw, hpw => ⟨hw, hpw, fun _ => rfl⟩
  | op :: ops, t, hw, hpw => by
    have hnd : (inorder t).Nodup := hpw.imp (fun hab => ne_of_lt hab)
    cases op with
    | ins x =>
      obtain ⟨t2, heq, hw2, _, hio, _⟩ := Node_insert_spec x t hw hpw
      have hstep : applyOp t (Op.ins x) = t2 := by
        simp [applyOp, BT_insert_root, heq]
      have hpw2 : (inorder t2).Pairwise (· < ·) := by
        rw [hio]; exact pairwise_insList x _ hpw
      have IH := foldl_applyOp_spec ops t2 hw2 hpw2
      simp only [List.foldl_cons, hstep]
      refine ⟨IH.1, IH.2.1, ?_⟩
      intro y
      rw [IH.2.2 y]
      congr 1
      simp only [liveStep, hio]
      by_cases hxy : x = y
      · subst hxy
        simp [mem_insList]
      · simp only [if_neg hxy]
        simp [mem_insList, hxy, Ne.symm hxy]
    | del x =>
      obtain ⟨t2, heq, hw2, _, hio, _⟩ := Node_remove_spec x (size t) t le_rfl hw hpw
      have hstep : applyOp t (Op.del x) = t2 := by
        simp [applyOp, BT_remove_root, heq]
      have hpw2 : (inorder t2).Pairwise (· < ·) := by
        rw [hio]
        exact hpw.sublist (List.erase_sublist x (inorder t))
      have IH := foldl_applyOp_spec ops t2 hw2 hpw2
      simp only [List.foldl_cons, hstep]
      refine ⟨IH.1, IH.2.1, ?_⟩
      intro y
      rw [IH.2.2 y]
      congr 1
      simp only [liveStep, hio]
      by_cases hxy : x = y
      · subst hxy
        simp [hnd.mem_erase_iff]
      · simp only [if_neg hxy]
        simp [hnd.mem_erase_iff, Ne.symm hxy]

end NTree

namespace NTree

theorem hitsTwo_swapRightmost (it : Int) :
    ∀ l : NTree Int, wfB l = true → (∀ y ∈ inorder l, y < it) →
      hitsTwo icmp (swapRightmost it l).2 it = false
  | nil, _, _ => rfl
  | node a ll nil b h, hw, hbd => by
    obtain ⟨hwll, _, hh, hb, hb1, hb2⟩ := (wfB_node_iff _ _ _ _ _).mp hw
    simp only [swapRightmost]
    cases ll with
    | nil =>
      have hh1 : h = 1 := by simp only [heightOf_nil] at hh; omega
      have hb0 : b = 0 := by simp only [heightOf_nil] at hb; omega
      simp [hitsTwo, icmp_eq, hh1, hb0]
    | node c cl cr cb ch2 =>
      simp [hitsTwo, icmp_eq]
  | node a ll (node rit rl rr rb rh) b h, hw, hbd => by
    obtain ⟨hwll, hwr, hh, hb, hb1, hb2⟩ := (wfB_node_iff _ _ _ _ _).mp hw
    have ha : a < it := hbd a (by simp)
    simp only [swapRightmost, hitsTwo, icmp_lt ha]
    exact hitsTwo_swapRightmost it (node rit rl rr rb rh) hwr (by
      intro y hy
      refine hbd y ?_
      simp only [inorder_node, List.mem_append, List.mem_cons] at hy ⊢
      tauto)

end NTree

/-! ## Claim theorems -/

namespace NTree

/-- C1: For every sequence of insert and remove operations starting from the
empty tree, after each mutation completes every node in the tree satisfies
`|balance| ≤ 1` and `height = 1 + max(height of left child, height of right
child)` with a missing child counting as height `0` — i.e. `wfB` holds of
every reachable tree state. -/
theorem c1_avl_invariant_after_every_mutation (ops : List Op) :
    wfB (applyOps ops) = true :=
  (foldl_applyOp_spec ops nil rfl (by simp)).1

/-- C2: For every tree state reachable by any sequence of inserts and
removes under the total-order comparator, the in-order traversal sequence is
strictly increasing and visits no item twice. -/
theorem c2_inorder_strictly_increasing_no_dup (ops : List Op) :
    (inorder (applyOps ops)).Pairwise (· < ·) ∧ (inorder (applyOps ops)).Nodup :=
  have h := (foldl_applyOp_spec ops nil rfl (by simp)).2.1
  ⟨h, h.imp (fun hab => ne_of_lt hab)⟩

/-- C3: After any sequence of insert/remove operations, `locate x` returns a
found node (holding `x`) iff `x` was inserted at some point and not removed
afterwards, and returns the `None` sentinel otherwise. -/
theorem c3_locate_found_iff_inserted_not_removed (ops : List Op) (x : Int) :
    BinaryTree_locate icmp (applyOps ops) x =
      some (if liveAfter ops x then some x else none) := by
  have hs := foldl_applyOp_spec ops nil rfl (by simp)
  rw [BinaryTree_locate_spec (applyOps ops) hs.2.1 x]
  have hmem := hs.2.2 x
  have hinit : decide (x ∈ inorder (nil : NTree Int)) = false := by simp
  rw [hinit] at hmem
  have hiff : (x ∈ inorder (applyOps ops)) ↔ liveAfter ops x = true := by
    simp only [liveAfter]
    rw [← hmem]
    exact decide_eq_true_iff.symm
  by_cases hm : x ∈ inorder (applyOps ops)
  · rw [if_pos hm, if_pos (hiff.mp hm)]
  · rw [if_neg hm, if_neg (fun hc => hm (hiff.mpr hc))]

end NTree

namespace NTree

/-- C4 (code-bug evidence): when the comparator fails during an insert or a
remove, the operation does report the failure (`Node_insert` returns
`none`), but `BinaryTree_insert`/`BinaryTree_remove` assign the `NULL`
return value to `self->root`, so the tree is NOT left in its pre-operation
shape: the entire tree is discarded (the root becomes `NULL`).  Evaluated
here on the one-node tree `{1}` with every comparison failing. -/
theorem c4_comparator_failure_discards_tree :
    Node_insert failingCmp (node 1 nil nil 0 1 : NTree Int) 3 = none ∧
    BT_insert_root failingCmp (node 1 nil nil 0 1 : NTree Int) 3 = nil ∧
    Node_remove failingCmp (node 1 nil nil 0 1 : NTree Int) 3 = none ∧
    BT_remove_root failingCmp (node 1 nil nil 0 1 : NTree Int) 3 = nil ∧
    (nil : NTree Int) ≠ node 1 nil nil 0 1 := by
  refine ⟨rfl, rfl, ?_, ?_, by decide⟩
  · simp [Node_remove, failingCmp]
  · simp [BT_remove_root, Node_remove, failingCmp]

/-- C5: For a removal whose matched node has both children, `Node_remove`
swaps the matched item with the in-order predecessor (the rightmost item of
the left subtree), then recursively removes the (now relocated) target from
the left subtree, where the recursion never enters the two-children case
again (it hits the leaf or one-child case). -/
theorem c5_two_children_removal_spec (it b h : Int) (l r : NTree Int)
    (hw : wfB (node it l r b h) = true)
    (hpw : (inorder (node it l r b h)).Pairwise (· < ·))
    (hl : l ≠ nil) (hr : r ≠ nil) :
    Node_remove icmp (node it l r b h) it =
      Option.map
        (fun l2 => unwindRemL (swapRightmost it l).1 l2 r (heightOf (swapRightmost it l).2))
        (Node_remove icmp (swapRightmost it l).2 it) ∧
    (∃ A, inorder l = A ++ [(swapRightmost it l).1] ∧
      inorder (swapRightmost it l).2 = A ++ [it]) ∧
    hitsTwo icmp (swapRightmost it l).2 it = false := by
  obtain ⟨hwl, hwr, hh, hb, hb1, hb2⟩ := (wfB_node_iff _ _ _ _ _).mp hw
  rw [inorder_node] at hpw
  obtain ⟨hpl, hpitr, hcross⟩ := List.pairwise_append.mp hpw
  have hlnil : isNil l = false := by
    cases l with
    | nil => exact absurd rfl hl
    | node a b c d e => rfl
  have hrnil : isNil r = false := by
    cases r with
    | nil => exact absurd rfl hr
    | node a b c d e => rfl
  refine ⟨?_, ?_, ?_⟩
  · cases hrec : Node_remove icmp (swapRightmost it l).2 it with
    | none =>
      simp only [Node_remove, icmp_eq, hlnil, hrnil, Bool.and_false, Bool.false_and,
        Bool.false_eq_true, if_false, hrec]
      rfl
    | some l2 =>
      simp only [Node_remove, icmp_eq, hlnil, hrnil, Bool.and_false, Bool.false_and,
        Bool.false_eq_true, if_false, hrec]
      rfl
  · obtain ⟨A, a, hA, h1, h2⟩ := swapRightmost_inorder it l hl
    refine ⟨A, ?_, h2⟩
    rw [h1]
    exact hA
  · exact hitsTwo_swapRightmost it l hwl (fun y hy => hcross y hy it (by simp))

/-- Witness for C5 at the concrete tree `{1, 2, 3}` with root `2` (two
children), removing `2`. -/
theorem c5_two_children_removal_spec_witness :
    wfB (node 2 (node 1 nil nil 0 1) (node 3 nil nil 0 1) 0 2 : NTree Int) = true ∧
    (inorder (node 2 (node 1 nil nil 0 1) (node 3 nil nil 0 1) 0 2 : NTree Int)).Pairwise
      (· < ·) ∧
    (Node_remove icmp (node 2 (node 1 nil nil 0 1) (node 3 nil nil 0 1) 0 2) 2 =
      Option.map
        (fun l2 => unwindRemL (swapRightmost 2 (node 1 nil nil 0 1)).1 l2
          (node 3 nil nil 0 1) (heightOf (swapRightmost 2 (node 1 nil nil 0 1)).2))
        (Node_remove icmp (swapRightmost 2 (node 1 nil nil 0 1)).2 2) ∧
    (∃ A, inorder (node 1 nil nil 0 1 : NTree Int) =
        A ++ [(swapRightmost 2 (node 1 nil nil 0 1)).1] ∧
      inorder (swapRightmost 2 (node 1 nil nil 0 1)).2 = A ++ [2]) ∧
    hitsTwo icmp (swapRightmost 2 (node 1 nil nil 0 1)).2 2 = false) :=
  ⟨by decide, by decide,
    c5_two_children_removal_spec 2 0 2 (node 1 nil nil 0 1) (node 3 nil nil 0 1)
      (by decide) (by decide) (by decide) (by decide)⟩

end NTree

namespace NTree

/-- C6 (counterexample): after inserting 4,2,6,1,3,5,7 and then removing 4,
the root item is NOT 5 as the claim states — the implementation swaps with
the in-order predecessor, so the root item becomes 3. -/
theorem c6_counterexample_root_item :
    ¬ itemOrD (applyOps [Op.ins 4, Op.ins 2, Op.ins 6, Op.ins 1, Op.ins 3, Op.ins 5,
        Op.ins 7, Op.del 4]) 0 = 5 := by
  have hins : applyOps [Op.ins 4, Op.ins 2, Op.ins 6, Op.ins 1, Op.ins 3, Op.ins 5,
      Op.ins 7] =
      node 4 (node 2 (node 1 nil nil 0 1) (node 3 nil nil 0 1) 0 2)
        (node 6 (node 5 nil nil 0 1) (node 7 nil nil 0 1) 0 2) 0 3 := by decide
  have hrem : Node_remove icmp
      (node 4 (node 2 (node 1 nil nil 0 1) (node 3 nil nil 0 1) 0 2)
        (node 6 (node 5 nil nil 0 1) (node 7 nil nil 0 1) 0 2) 0 3) 4 =
      some (node 3 (node 2 (node 1 nil nil 0 1) nil (-1) 2)
        (node 6 (node 5 nil nil 0 1) (node 7 nil nil 0 1) 0 2) 0 3) := by
    simp [Node_remove, icmp, swapRightmost, unwindRemL, unwindRemR, withHeight, withBalance,
      rotateLeft, rotateRight, setLchild, setRchild]
  have happ : applyOps [Op.ins 4, Op.ins 2, Op.ins 6, Op.ins 1, Op.ins 3, Op.ins 5,
      Op.ins 7, Op.del 4] =
      node 3 (node 2 (node 1 nil nil 0 1) nil (-1) 2)
        (node 6 (node 5 nil nil 0 1) (node 7 nil nil 0 1) 0 2) 0 3 := by
    have hsplit : applyOps [Op.ins 4, Op.ins 2, Op.ins 6, Op.ins 1, Op.ins 3, Op.ins 5,
        Op.ins 7, Op.del 4] =
        applyOp (applyOps [Op.ins 4, Op.ins 2, Op.ins 6, Op.ins 1, Op.ins 3, Op.ins 5,
          Op.ins 7]) (Op.del 4) := by
      simp [applyOps]
    rw [hsplit, hins]
    simp [applyOp, BT_remove_root, hrem]
  rw [happ]
  decide

/-- C6 (amended): inserting 4,2,6,1,3,5,7 yields a tree of height 3 with
root item 4 and balance 0 at every node; removing 4 then swaps in the
in-order predecessor, yielding root item 3 with the height still 3. -/
theorem c6_amended_scenario :
    heightOf (applyOps [Op.ins 4, Op.ins 2, Op.ins 6, Op.ins 1, Op.ins 3, Op.ins 5,
      Op.ins 7]) = 3 ∧
    itemOrD (applyOps [Op.ins 4, Op.ins 2, Op.ins 6, Op.ins 1, Op.ins 3, Op.ins 5,
      Op.ins 7]) 0 = 4 ∧
    allBalanceZero (applyOps [Op.ins 4, Op.ins 2, Op.ins 6, Op.ins 1, Op.ins 3, Op.ins 5,
      Op.ins 7]) = true ∧
    itemOrD (applyOps [Op.ins 4, Op.ins 2, Op.ins 6, Op.ins 1, Op.ins 3, Op.ins 5,
      Op.ins 7, Op.del 4]) 0 = 3 ∧
    heightOf (applyOps [Op.ins 4, Op.ins 2, Op.ins 6, Op.ins 1, Op.ins 3, Op.ins 5,
      Op.ins 7, Op.del 4]) = 3 := by
  have hins : applyOps [Op.ins 4, Op.ins 2, Op.ins 6, Op.ins 1, Op.ins 3, Op.ins 5,
      Op.ins 7] =
      node 4 (node 2 (node 1 nil nil 0 1) (node 3 nil nil 0 1) 0 2)
        (node 6 (node 5 nil nil 0 1) (node 7 nil nil 0 1) 0 2) 0 3 := by decide
  have hrem : Node_remove icmp
      (node 4 (node 2 (node 1 nil nil 0 1) (node 3 nil nil 0 1) 0 2)
        (node 6 (node 5 nil nil 0 1) (node 7 nil nil 0 1) 0 2) 0 3) 4 =
      some (node 3 (node 2 (node 1 nil nil 0 1) nil (-1) 2)
        (node 6 (node 5 nil nil 0 1) (node 7 nil nil 0 1) 0 2) 0 3) := by
    simp [Node_remove, icmp, swapRightmost, unwindRemL, unwindRemR, withHeight, withBalance,
      rotateLeft, rotateRight, setLchild, setRchild]
  have happ : applyOps [Op.ins 4, Op.ins 2, Op.ins 6, Op.ins 1, Op.ins 3, Op.ins 5,
      Op.ins 7, Op.del 4] =
      node 3 (node 2 (node 1 nil nil 0 1) nil (-1) 2)
        (node 6 (node 5 nil nil 0 1) (node 7 nil nil 0 1) 0 2) 0 3 := by
    have hsplit : applyOps [Op.ins 4, Op.ins 2, Op.ins 6, Op.ins 1, Op.ins 3, Op.ins 5,
        Op.ins 7, Op.del 4] =
        applyOp (applyOps [Op.ins 4, Op.ins 2, Op.ins 6, Op.ins 1, Op.ins 3, Op.ins 5,
          Op.ins 7]) (Op.del 4) := by
      simp [applyOps]
    rw [hsplit, hins]
    simp [applyOp, BT_remove_root, hrem]
  rw [hins, happ]
  refine ⟨rfl, rfl, by decide, rfl, rfl⟩

/-- C7 (counterexample): after inserting 1,2,3,4,5 in ascending order the
root item is NOT 4 as the claim states — the fifth insertion rebalances
inside the right subtree and leaves the root at 2. -/
theorem c7_counterexample_root_item :
    ¬ itemOrD (applyOps [Op.ins 1, Op.ins 2, Op.ins 3, Op.ins 4, Op.ins 5]) 0 = 4 := by
  decide

/-- C7 (amended): inserting 1,2,3,4,5 in ascending order gives the root item
sequence 1,1,2,2,2 after the successive insertions (a rotation promotes 2 to
the root at the third insertion; the fifth insertion is absorbed by a
rotation inside the right subtree, leaving the root unchanged). -/
theorem c7_amended_root_sequence :
    itemOrD (applyOps [Op.ins 1]) 0 = 1 ∧
    itemOrD (applyOps [Op.ins 1, Op.ins 2]) 0 = 1 ∧
    itemOrD (applyOps [Op.ins 1, Op.ins 2, Op.ins 3]) 0 = 2 ∧
    itemOrD (applyOps [Op.ins 1, Op.ins 2, Op.ins 3, Op.ins 4]) 0 = 2 ∧
    itemOrD (applyOps [Op.ins 1, Op.ins 2, Op.ins 3, Op.ins 4, Op.ins 5]) 0 = 2 := by
  decide

end NTree

namespace NTree

/-- C8: On a well-formed sorted tree, inserting an item already present and
removing an item not present are both no-ops that report success: the
operation returns the tree completely unchanged (same structure, items,
heights and balances) and no error is raised. -/
theorem c8_duplicate_insert_missing_remove_noop (t : NTree Int) (x y : Int)
    (hw : wfB t = true) (hpw : (inorder t).Pairwise (· < ·))
    (hx : x ∈ inorder t) (hy : y ∉ inorder t) :
    Node_insert icmp t x = some t ∧ Node_remove icmp t y = some t := by
  obtain ⟨t2, heq2, _, _, _, hdup⟩ := Node_insert_spec x t hw hpw
  obtain ⟨t3, heq3, _, _, _, hnm⟩ := Node_remove_spec y (size t) t le_rfl hw hpw
  constructor
  · rw [heq2, hdup hx]
  · rw [heq3, hnm hy]

/-- Witness for C8 at the one-node tree `{1}`: inserting the duplicate `1`
and removing the missing `2` both return the tree unchanged. -/
theorem c8_duplicate_insert_missing_remove_noop_witness :
    wfB (node 1 nil nil 0 1 : NTree Int) = true ∧
    (inorder (node 1 nil nil 0 1 : NTree Int)).Pairwise (· < ·) ∧
    (1 : Int) ∈ inorder (node 1 nil nil 0 1 : NTree Int) ∧
    (2 : Int) ∉ inorder (node 1 nil nil 0 1 : NTree Int) ∧
    (Node_insert icmp (node 1 nil nil 0 1) 1 = some (node 1 nil nil 0 1) ∧
      Node_remove icmp (node 1 nil nil 0 1) 2 = some (node 1 nil nil 0 1)) :=
  ⟨by decide, by decide, by decide, by decide,
    c8_duplicate_insert_missing_remove_noop (node 1 nil nil 0 1) 1 2
      (by decide) (by decide) (by decide) (by decide)⟩

/-- C9 (code-bug evidence): on every non-empty Subtree, `Node_copytree`
rebuilds the whole node structure and the copy's in-order item sequence
equals the original's (indeed the copy is value-equal, every node being
reconstructed); but on an empty Subtree (`root == NULL`, reachable e.g. as
the `left_child` of a leaf) `Subtree_maketree` never initializes the new
tree's root field, embedded as `none`. -/
theorem c9_maketree_copy :
    (∀ t : NTree Int, inorder (Node_copytree t) = inorder t ∧ Node_copytree t = t ∧
      (t ≠ nil → Subtree_maketree_root t = some (Node_copytree t))) ∧
    Subtree_maketree_root (nil : NTree Int) = none := by
  have hcopy : ∀ t : NTree Int, Node_copytree t = t := by
    intro t
    induction t with
    | nil => rfl
    | node it l r b h ihl ihr => simp [Node_copytree, ihl, ihr]
  refine ⟨fun t => ⟨by rw [hcopy t], hcopy t, ?_⟩, rfl⟩
  intro hne
  cases t with
  | nil => exact absurd rfl hne
  | node it l r b h => rfl

/-- C10: the read-only operations (`locate`, `contains`, and the three
traversal orders) leave the tree (its root, child links, items, heights
and balances) exactly as received, for every comparator and every visitor,
including failing ones: their source contains no store to any node, which
the state-transformer embeddings record by returning the tree unchanged. -/
theorem c10_readonly_operations_frame {α : Type} (cmp : α → α → Option Ordering)
    (t : NTree α) (x : α) (f : α → Option Unit) :
    (BinaryTree_locate_run cmp t x).2 = t ∧
    (BinaryTree_contains_run cmp t x).2 = t ∧
    (BinaryTree_inOrder_run f t).2 = t ∧
    (BinaryTree_preOrder_run f t).2 = t ∧
    (BinaryTree_postOrder_run f t).2 = t :=
  ⟨rfl, rfl, rfl, rfl, rfl⟩

end NTree
